import Mathlib

/-!
Verification development for the fast-compress repository
(src/compress.h, src/main.cpp, src/util.h).

Modelling conventions: bytes are `Nat` values and byte buffers are
`List Nat`; where the C++ source casts to `unsigned char` the model takes
`% 256` explicitly.  Fallal paths — the fatal `exit(EXIT_FAILURE)` calls
and out-of-bounds buffer reads — are modelled with `Option`: `none` marks
that the corresponding execution does not return normally.  The external
compression libraries (liblzo, zstd, lz4, zlib) are not part of this
repository; the layered `lzo-rle` codec is therefore parametrised by the
dictionary-pass primitives, which the repository's own logic treats as
opaque functions.
-/

set_option linter.unusedVariables false

namespace FastCompress

/-- `kPageSize` from src/main.cpp line 14. -/
def kPageSize : Nat := 4096

/-- One state of the loop of `LZORLE::rleCompress` (src/compress.h lines
236-251): `b` is `current_byte`, `run` is `run_length`, and the argument
list is the not-yet-consumed suffix of the input.  The inner `while`
extends the current run while the next byte equals `current_byte` and
`run_length < 255`; otherwise the pair
`(current_byte, (unsigned char)run_length)` is emitted and a fresh run is
started at the next byte.  When the input is exhausted the final pair is
emitted. -/
def rleGo (b run : Nat) : List Nat → List Nat
  | [] => [b, run % 256]
  | x :: xs =>
      if x = b ∧ run < 255 then rleGo b (run + 1) xs
      else b :: run % 256 :: rleGo x 1 xs

/-- `LZORLE::rleCompress` (src/compress.h lines 236-251): the outer loop
starts a run of length 1 at the first byte; an empty input produces an
empty output. -/
def rleCompress : List Nat → List Nat
  | [] => []
  | x :: xs => rleGo x 1 xs

/-- `LZORLE::rleDecompress` (src/compress.h lines 254-264).  Each loop
iteration executes `input[i++]` twice with only `i < input_len` checked at
the top, so a one-byte remainder makes the second read hit index
`input_len`: `none` models that out-of-bounds read.  The source contains
no error-rejection path at all.  The run length is read as an
`unsigned char` and the pair expands to that many copies of the value. -/
def rleDecompress : List Nat → Option (List Nat)
  | [] => some []
  | [_] => none
  | b :: n :: rest =>
      (rleDecompress rest).map fun t => List.replicate (n % 256) b ++ t

/-- `LZORLE::compress` (src/compress.h lines 185-211).  Step 1, the
dictionary pass `lzo1x_1_11_compress`, is an external-library primitive
and appears as the parameter `lzoC` producing the intermediate bytes.
Step 2 run-length-encodes the intermediate; step 3 aborts with a fatal
"RLE compressed data exceeds destination buffer!" error (`none`) when the
encoded data exceeds `dst_len`, otherwise copies it to `dst` and returns
it. -/
def LZORLE.compress (lzoC : List Nat → List Nat) (dst_len : Nat)
    (src : List Nat) : Option (List Nat) :=
  let rle_compressed_data := rleCompress (lzoC src)
  if rle_compressed_data.length > dst_len then none
  else some rle_compressed_data

/-- `LZORLE::decompress` (src/compress.h lines 213-232).  Step 1
run-length-decodes `src`; step 2 hands the decoded bytes — with that
data's own length, not the original `src_len` — to the external
`lzo1x_decompress`, which appears as the parameter `lzoD`.  `dst_len`
only initialises the library's out-parameter and plays no functional
role. -/
def LZORLE.decompress (lzoD : List Nat → List Nat) (dst_len : Nat)
    (src : List Nat) : Option (List Nat) :=
  (rleDecompress src).map lzoD

/-- Unfolding equation of `rleGo` on an exhausted input. -/
lemma rleGo_nil (b run : Nat) : rleGo b run [] = [b, run % 256] := rfl

/-- Unfolding equation of `rleGo` on a remaining byte. -/
lemma rleGo_cons (b run x : Nat) (xs : List Nat) :
    rleGo b run (x :: xs) =
      if x = b ∧ run < 255 then rleGo b (run + 1) xs
      else b :: run % 256 :: rleGo x 1 xs := rfl

/-- Unfolding equation of `rleDecompress` on an exhausted input. -/
lemma rleDecompress_nil : rleDecompress [] = some [] := rfl

/-- Unfolding equation of `rleDecompress` on a complete pair. -/
lemma rleDecompress_pair (b n : Nat) (rest : List Nat) :
    rleDecompress (b :: n :: rest) =
      (rleDecompress rest).map fun t => List.replicate (n % 256) b ++ t := rfl

/-- Decoding the pairs emitted from an in-progress run state recovers the
run consumed so far followed by the remaining input. -/
lemma rleDecompress_rleGo (b run : Nat) (l : List Nat) (h1 : 1 ≤ run)
    (h255 : run ≤ 255) :
    rleDecompress (rleGo b run l) = some (List.replicate run b ++ l) := by
  induction l generalizing b run with
  | nil =>
      have hrun : run % 256 = run := Nat.mod_eq_of_lt (by omega)
      simp [rleGo, rleDecompress, hrun]
  | cons x xs ih =>
      by_cases hx : x = b ∧ run < 255
      · obtain ⟨hxb, hlt⟩ := hx
        subst hxb
        have hih := ih x (run + 1) (by omega) (by omega)
        simp [rleGo, hlt, hih, List.replicate_succ' run x]
      · have hrun : run % 256 = run := Nat.mod_eq_of_lt (by omega)
        have := ih x 1 (by omega) (by omega)
        simp [rleGo, if_neg hx, rleDecompress, this, hrun]

/-- Round trip of the run-length layer itself: `rleDecompress` inverts
`rleCompress` on every input. -/
lemma rleDecompress_rleCompress (l : List Nat) :
    rleDecompress (rleCompress l) = some l := by
  cases l with
  | nil => rfl
  | cons x xs => simpa [rleCompress] using rleDecompress_rleGo x 1 xs (by omega) (by omega)

/-- Consuming `d` further identical bytes advances the run state by `d`
as long as the 255 cap is not passed. -/
lemma rleGo_replicate_fill (b : Nat) :
    ∀ (d run k : Nat), run + d ≤ 255 → d ≤ k →
      rleGo b run (List.replicate k b) =
        rleGo b (run + d) (List.replicate (k - d) b) := by
  intro d
  induction d with
  | zero => intro run k _ _; simp
  | succ d ih =>
      intro run k hcap hk
      obtain ⟨k', rfl⟩ : ∃ k', k = k' + 1 := ⟨k - 1, by omega⟩
      have hlt : run < 255 := by omega
      have hstep : rleGo b run (List.replicate (k' + 1) b) =
          rleGo b (run + 1) (List.replicate k' b) := by
        rw [List.replicate_succ]
        simp [rleGo, hlt]
      rw [hstep, show run + (d + 1) = run + 1 + d by omega,
        show k' + 1 - (d + 1) = k' - d by omega]
      exact ih (run + 1) k' (by omega) (by omega)

/-- A run that fits under the cap is emitted as a single pair carrying the
exact run length. -/
lemma rleGo_replicate_small (b : Nat) :
    ∀ (k run : Nat), 1 ≤ run → run + k ≤ 255 →
      rleGo b run (List.replicate k b) = [b, run + k] := by
  intro k
  induction k with
  | zero =>
      intro run h1 hcap
      simp [rleGo, Nat.mod_eq_of_lt (show run < 256 by omega)]
  | succ k ih =>
      intro run h1 hcap
      have hstep : rleGo b run (List.replicate (k + 1) b) =
          rleGo b (run + 1) (List.replicate k b) := by
        rw [List.replicate_succ]
        simp [rleGo, show run < 255 by omega]
      rw [hstep, show run + (k + 1) = run + 1 + k by omega]
      exact ih (run + 1) (by omega) (by omega)

/-- Claim C2: the run-length encoder caps runs at 255 — a run of 300
identical bytes is encoded as exactly the two pairs (value, 255) and
(value, 45), a new pair being started once the cap is hit, and decoding
those two pairs reconstructs exactly the 300 repeated bytes. -/
theorem rle_cap_300 (b : Nat) :
    rleCompress (List.replicate 300 b) = [b, 255, b, 45] ∧
    rleDecompress [b, 255, b, 45] = some (List.replicate 300 b) := by
  constructor
  · have h300 : List.replicate 300 b = b :: List.replicate 299 b :=
      List.replicate_succ b 299
    rw [h300]
    simp only [rleCompress]
    have hfill := rleGo_replicate_fill b 254 1 299 (by omega) (by omega)
    norm_num at hfill
    rw [hfill]
    have h45 : List.replicate 45 b = b :: List.replicate 44 b :=
      List.replicate_succ b 44
    rw [h45, rleGo_cons, if_neg (show ¬(b = b ∧ 255 < 255) by omega),
      rleGo_replicate_small b 44 1 (by omega) (by omega)]
  · have hpair : rleDecompress [b, 45] = some (List.replicate 45 b) := by
      rw [rleDecompress_pair, rleDecompress_nil]
      norm_num
    rw [rleDecompress_pair, hpair, show (300 : Nat) = 255 + 45 by norm_num,
      List.replicate_add]
    norm_num

/-- Claim C1: round-trip identity for the layered lzo-rle codec.  If
`compress` returns normally with result `out` (its destination capacity
`dst_len` was sufficient, so the overflow abort did not fire) then
`decompress` applied to exactly `out`, with any destination capacity of at
least `src.length`, returns exactly the original `src.length` bytes of
`src`.  The external dictionary primitives `lzoC`/`lzoD` are assumed to
satisfy their round-trip contract. -/
theorem lzorle_roundtrip (lzoC lzoD : List Nat → List Nat)
    (hlzo : ∀ x, lzoD (lzoC x) = x) (dst_len dst_cap : Nat)
    (src out : List Nat)
    (hcomp : LZORLE.compress lzoC dst_len src = some out)
    (hcap : src.length ≤ dst_cap) :
    LZORLE.decompress lzoD dst_cap out = some src := by
  simp only [LZORLE.compress] at hcomp
  split at hcomp
  · exact Option.noConfusion hcomp
  · have hout : rleCompress (lzoC src) = out := Option.some.inj hcomp
    simp only [LZORLE.decompress]
    rw [← hout, rleDecompress_rleCompress]
    simp [hlzo]

/-- Witness for C1 at a concrete input: compressing the three bytes
`[7, 7, 7]` with capacity 6 yields `[7, 3]`, and decompressing it with
capacity 3 returns the original bytes. -/
theorem lzorle_roundtrip_witness :
    LZORLE.decompress (fun x => x) 3 [7, 3] = some [7, 7, 7] :=
  lzorle_roundtrip (fun x => x) (fun x => x) (fun _ => rfl) 6 3
    [7, 7, 7] [7, 3] (by decide) (by decide)

/-- Each emitted pair of the run-length encoder consumes at least one
input byte, so the output of a run in progress is at most `2 + 2 * n`
bytes for `n` remaining input bytes. -/
lemma rleGo_length_le (b run : Nat) :
    ∀ l : List Nat, (rleGo b run l).length ≤ 2 + 2 * l.length := by
  intro l
  induction l generalizing b run with
  | nil => simp [rleGo]
  | cons x xs ih =>
      by_cases hx : x = b ∧ run < 255
      · simp only [rleGo, if_pos hx, List.length_cons]
        have := ih b (run + 1)
        omega
      · simp only [rleGo, if_neg hx, List.length_cons]
        have := ih x 1
        omega

/-- The run-length encoding of `l` is never longer than `2 * l.length`. -/
lemma rleCompress_length_le (l : List Nat) :
    (rleCompress l).length ≤ 2 * l.length := by
  cases l with
  | nil => simp [rleCompress]
  | cons x xs =>
      have := rleGo_length_le x 1 xs
      simp only [rleCompress, List.length_cons]
      omega

/-- Claim C3: the layered codec respects the worst-case bound.  With a
destination capacity of `2 * src.length`, any output `compress` returns
has length at most `2 * src.length`; whenever the run-length-encoded data
would not fit the given capacity, `compress` takes the fatal-overflow path
(`none`) and copies nothing into the destination; and the run-length pass
itself at most doubles the intermediate produced by the dictionary
pass. -/
theorem lzorle_worst_case (lzoC : List Nat → List Nat) (src : List Nat)
    (dst_len : Nat) :
    (∀ out, LZORLE.compress lzoC (2 * src.length) src = some out →
      out.length ≤ 2 * src.length) ∧
    ((rleCompress (lzoC src)).length > dst_len →
      LZORLE.compress lzoC dst_len src = none) ∧
    (rleCompress (lzoC src)).length ≤ 2 * (lzoC src).length := by
  refine ⟨?_, ?_, rleCompress_length_le (lzoC src)⟩
  · intro out hout
    simp only [LZORLE.compress] at hout
    split at hout
    · exact Option.noConfusion hout
    · rename_i hle
      rw [← Option.some.inj hout]
      omega
  · intro hov
    simp only [LZORLE.compress]
    rw [if_pos hov]

/-- Witness for C3 at a concrete input: the three distinct bytes
`[1, 2, 3]` run-length-encode to 6 bytes, so a capacity of 5 triggers the
fatal overflow path, while capacity `2 * 3` admits the 6-byte output. -/
theorem lzorle_worst_case_witness :
    LZORLE.compress (fun x => x) 5 [1, 2, 3] = none ∧
    ([1, 1, 2, 1, 3, 1] : List Nat).length ≤ 2 * 3 :=
  ⟨(lzorle_worst_case (fun x => x) [1, 2, 3] 5).2.1 (by decide),
   (lzorle_worst_case (fun x => x) [1, 2, 3] 5).1 [1, 1, 2, 1, 3, 1]
     (by decide)⟩

/-- Claim C4 (the failing behaviour): on every odd-length input the
`rleDecompress` loop reaches the unchecked second `input[i++]` read at
index `input_len` — an out-of-bounds read, modelled as `none`.  The
source has no rejection path for malformed input: the claimed "reported
decode error" does not exist, and the read past the end does happen. -/
theorem rleDecompress_odd_oob :
    ∀ l : List Nat, l.length % 2 = 1 → rleDecompress l = none
  | [], h => by simp at h
  | [_], _ => rfl
  | a :: b :: rest, h => by
      have hr : rest.length % 2 = 1 := by
        simp only [List.length_cons] at h
        omega
      simp [rleDecompress, rleDecompress_odd_oob rest hr]

/-- Witness for C4: the single-byte input `[65]` drives the loop straight
into the out-of-bounds read. -/
theorem rleDecompress_odd_oob_witness : rleDecompress [65] = none :=
  rleDecompress_odd_oob [65] (by decide)

/-- The codec classes of src/compress.h a factory call can construct. -/
inductive CodecKind where
  | lz4hc
  | lz4
  | lzo
  | lzorle
  | zstd
  | deflate842
deriving DecidableEq

/-- `createCompressor` (src/main.cpp lines 34-50): the if/else-if chain
mapping the algorithm name to the codec it constructs; the final branch
throws `std::invalid_argument`, modelled as `Except.error` carrying the
exception message. -/
def createCompressor (algorithm : String) : Except String CodecKind :=
  if algorithm = "lz4hc" then .ok .lz4hc
  else if algorithm = "lz4" then .ok .lz4
  else if algorithm = "lzo" then .ok .lzo
  else if algorithm = "lzo-rle" then .ok .lzorle
  else if algorithm = "zstd" then .ok .zstd
  else if algorithm = "842" then .ok .deflate842
  else .error ("Unknown compression algorithm: " ++ algorithm)

/-- Counterexample to claim C5 as stated: the factory does not recognize
the name "deflate842" — it signals the configuration error instead of
constructing the Deflate842 codec.  The sixth recognized name is "842". -/
theorem createCompressor_deflate842_unrecognized :
    createCompressor "deflate842" =
      Except.error "Unknown compression algorithm: deflate842" := by
  rfl

/-- Claim C5 as amended: the factory, given any of the six recognized
identifiers `lz4hc`, `lz4`, `lzo`, `lzo-rle`, `zstd`, `842`, constructs
the corresponding codec; given any name outside that set it signals the
configuration error (an exception the caller can report) and constructs
nothing. -/
theorem createCompressor_total :
    createCompressor "lz4hc" = .ok .lz4hc ∧
    createCompressor "lz4" = .ok .lz4 ∧
    createCompressor "lzo" = .ok .lzo ∧
    createCompressor "lzo-rle" = .ok .lzorle ∧
    createCompressor "zstd" = .ok .zstd ∧
    createCompressor "842" = .ok .deflate842 ∧
    ∀ name : String,
      name ∉ (["lz4hc", "lz4", "lzo", "lzo-rle", "zstd", "842"] : List String) →
      createCompressor name =
        .error ("Unknown compression algorithm: " ++ name) := by
  refine ⟨rfl, rfl, rfl, rfl, rfl, rfl, ?_⟩
  intro name h
  simp only [List.mem_cons, List.not_mem_nil, or_false, not_or] at h
  obtain ⟨h1, h2, h3, h4, h5, h6⟩ := h
  simp [createCompressor, h1, h2, h3, h4, h5, h6]

/-- Witness for C5 (amended): an unrecognized name yields the
configuration error. -/
theorem createCompressor_total_witness :
    createCompressor "unknown-name" =
      .error ("Unknown compression algorithm: " ++ "unknown-name") :=
  createCompressor_total.2.2.2.2.2.2 "unknown-name" (by decide)

/-- Size truncation (src/main.cpp line 76):
`size = size / block_size * block_size`. -/
def truncatedSize (file_size block_size : Nat) : Nat :=
  file_size / block_size * block_size

/-- Block count (src/main.cpp line 95): `nblock = size / block_size`,
computed on the already-truncated size. -/
def nblock (file_size block_size : Nat) : Nat :=
  truncatedSize file_size block_size / block_size

/-- The byte of the origin buffer read at offset `off` of block `bid`
(src/main.cpp line 104): block `bid` is the window
`[bid * block_size, (bid + 1) * block_size)`. -/
def blockByte (block_size bid off : Nat) : Nat :=
  bid * block_size + off

/-- Claim C7: the logical size is truncated down to the nearest multiple
of `block_size`; the block count is `file_size / block_size` rounded
down; every byte read into some block lies below the truncated size,
which never exceeds the file size; and in particular a file of
`7 * block_size + 100` bytes (`100` a proper trailing remainder) is
processed as exactly 7 blocks whose reads all stay below
`7 * block_size`, so the trailing 100 bytes are never read into any
block. -/
theorem block_truncation (file_size block_size : Nat)
    (hbs : 0 < block_size) :
    nblock file_size block_size = file_size / block_size ∧
    truncatedSize file_size block_size ≤ file_size ∧
    (∀ bid off, bid < nblock file_size block_size → off < block_size →
      blockByte block_size bid off < truncatedSize file_size block_size) ∧
    (100 < block_size →
      nblock (7 * block_size + 100) block_size = 7 ∧
      ∀ bid off, bid < 7 → off < block_size →
        blockByte block_size bid off < 7 * block_size) := by
  have hn : nblock file_size block_size = file_size / block_size := by
    unfold nblock truncatedSize
    exact Nat.mul_div_cancel (file_size / block_size) hbs
  have hblock : ∀ n bid off : Nat, bid < n → off < block_size →
      bid * block_size + off < n * block_size := by
    intro n bid off hbid hoff
    calc bid * block_size + off < bid * block_size + block_size := by omega
    _ = (bid + 1) * block_size := by ring
    _ ≤ n * block_size := Nat.mul_le_mul_right block_size (by omega)
  refine ⟨hn, Nat.div_mul_le_self file_size block_size, ?_, ?_⟩
  · intro bid off hbid hoff
    have := hblock (file_size / block_size) bid off (hn ▸ hbid) hoff
    unfold blockByte truncatedSize
    exact this
  · intro h100
    have hdiv : (7 * block_size + 100) / block_size = 7 := by
      rw [Nat.mul_comm 7 block_size, Nat.mul_add_div hbs,
        Nat.div_eq_of_lt h100]
    constructor
    · rw [show nblock (7 * block_size + 100) block_size =
          (7 * block_size + 100) / block_size *
            block_size / block_size from rfl, hdiv,
        Nat.mul_div_cancel 7 hbs]
    · intro bid off hbid hoff
      exact hblock 7 bid off hbid hoff

/-- Witness for C7: a file of `7 * 4096 + 100 = 28772` bytes with 4 KiB
blocks yields exactly 7 blocks, and the last byte read
(block 6, offset 4095) lies below the truncated size `28672`. -/
theorem block_truncation_witness :
    nblock 28772 4096 = 7 ∧ blockByte 4096 6 4095 < truncatedSize 28772 4096 :=
  ⟨(block_truncation 28772 4096 (by decide)).1,
   (block_truncation 28772 4096 (by decide)).2.2.1 6 4095 (by decide) (by decide)⟩

/-- Inner block loop of the compression pass (src/main.cpp lines
102-108): for each `bid` below `nblock` in order, the length returned by
`compressor->compress` for that block — abstracted as `f bid` for the
current iteration — is stored into `compressed_size[bid]`. -/
def compressInnerLoop (f : Nat → Nat) (nblock : Nat) (table : List Nat) :
    List Nat :=
  (List.range nblock).foldl (fun t bid => t.set bid (f bid)) table

/-- The double compression loop (src/main.cpp lines 101-109), starting
from the `calloc`-zeroed table with one entry per block (line 94);
`f i bid` abstracts the compressed length returned at iteration `i` for
block `bid`. -/
def compressionLoop (f : Nat → Nat → Nat) (niteration nblock : Nat) :
    List Nat :=
  (List.range niteration).foldl (fun t i => compressInnerLoop (f i) nblock t)
    (List.replicate nblock 0)

/-- The (iteration, block, src_len) triples of the decompress calls
issued by the decompression loop (src/main.cpp lines 121-127): the call
for block `bid` passes `compressed_size[bid]` as `src_len`. -/
def decompressSrcLens (niteration nblock : Nat) (table : List Nat) :
    List (Nat × Nat × Nat) :=
  (List.range niteration).flatMap fun i =>
    (List.range nblock).map fun bid => (i, bid, table.getD bid 0)

/-- Writing through a list of positions never changes the table's
length. -/
lemma foldl_set_length (f : Nat → Nat) :
    ∀ (l : List Nat) (t : List Nat),
      (l.foldl (fun t bid => t.set bid (f bid)) t).length = t.length
  | [], _ => rfl
  | x :: xs, t => by
      rw [List.foldl_cons, foldl_set_length f xs]
      simp

/-- The inner loop preserves the table length. -/
lemma compressInnerLoop_length (f : Nat → Nat) (nblock : Nat)
    (t : List Nat) : (compressInnerLoop f nblock t).length = t.length :=
  foldl_set_length f (List.range nblock) t

/-- The inner loop over `n + 1` blocks is the loop over `n` blocks
followed by the write for block `n`. -/
lemma compressInnerLoop_succ (f : Nat → Nat) (n : Nat) (t : List Nat) :
    compressInnerLoop f (n + 1) t = (compressInnerLoop f n t).set n (f n) := by
  unfold compressInnerLoop
  rw [List.range_succ, List.foldl_append]
  rfl

/-- After the inner loop, entry `bid` holds exactly the length returned
for block `bid`. -/
lemma compressInnerLoop_getD (f : Nat → Nat) :
    ∀ (n : Nat) (t : List Nat), n ≤ t.length →
      ∀ bid, bid < n → (compressInnerLoop f n t).getD bid 0 = f bid := by
  intro n
  induction n with
  | zero => intro t _ bid hbid; omega
  | succ n ih =>
      intro t ht bid hbid
      rw [compressInnerLoop_succ]
      by_cases hb : bid = n
      · subst hb
        have hlen : bid < (compressInnerLoop f bid t).length := by
          rw [compressInnerLoop_length]; omega
        rw [List.getD_eq_getElem?_getD, List.getElem?_set_eq_of_lt (f bid) hlen]
        rfl
      · rw [List.getD_eq_getElem?_getD,
          List.getElem?_set_ne (show n ≠ bid from fun h => hb h.symm),
          ← List.getD_eq_getElem?_getD]
        exact ih t (by omega) bid (by omega)

/-- Peeling the last iteration off the double loop. -/
lemma compressionLoop_succ (f : Nat → Nat → Nat) (m nblock : Nat) :
    compressionLoop f (m + 1) nblock =
      compressInnerLoop (f m) nblock (compressionLoop f m nblock) := by
  unfold compressionLoop
  rw [List.range_succ, List.foldl_append]
  rfl

/-- The table keeps one entry per block across all iterations. -/
lemma compressionLoop_length (f : Nat → Nat → Nat) :
    ∀ (niteration nblock : Nat),
      (compressionLoop f niteration nblock).length = nblock := by
  intro niteration
  induction niteration with
  | zero => intro nblock; simp [compressionLoop]
  | succ m ih =>
      intro nblock
      rw [compressionLoop_succ, compressInnerLoop_length]
      exact ih nblock

/-- After the compression loop, entry `bid` holds the length produced in
the final iteration: each earlier iteration's entry was overwritten. -/
lemma compressionLoop_getD_last (f : Nat → Nat → Nat) (m nblock bid : Nat)
    (hbid : bid < nblock) :
    (compressionLoop f (m + 1) nblock).getD bid 0 = f m bid := by
  rw [compressionLoop_succ]
  exact compressInnerLoop_getD (f m) nblock (compressionLoop f m nblock)
    (le_of_eq (compressionLoop_length f m nblock).symm) bid hbid

/-- Claim C6: the CompressedSizeTable connects the two loops exactly.
For a run of `m + 1` iterations over `nblock` blocks: the table has one
entry per block; after the compression loop entry `bid` holds the
compressed length `f m bid` returned for block `bid` in the final
iteration `m` (each iteration having overwritten the previous entry);
every decompress call of the decompression loop passes exactly the
recorded entry of its block index as `src_len`; and for every iteration
and block the loop does issue the call carrying the final iteration's
recorded length. -/
theorem compressedSizeTable_connects (f : Nat → Nat → Nat)
    (m nblock : Nat) :
    (compressionLoop f (m + 1) nblock).length = nblock ∧
    (∀ bid, bid < nblock →
      (compressionLoop f (m + 1) nblock).getD bid 0 = f m bid) ∧
    (∀ c ∈ decompressSrcLens (m + 1) nblock (compressionLoop f (m + 1) nblock),
      c.2.2 = (compressionLoop f (m + 1) nblock).getD c.2.1 0) ∧
    (∀ i bid, i < m + 1 → bid < nblock →
      (i, bid, f m bid) ∈
        decompressSrcLens (m + 1) nblock (compressionLoop f (m + 1) nblock)) := by
  refine ⟨compressionLoop_length f (m + 1) nblock,
    fun bid hbid => compressionLoop_getD_last f m nblock bid hbid, ?_, ?_⟩
  · intro c hc
    simp only [decompressSrcLens, List.mem_flatMap, List.mem_map,
      List.mem_range] at hc
    obtain ⟨i, _, bid, _, rfl⟩ := hc
    rfl
  · intro i bid hi hbid
    simp only [decompressSrcLens, List.mem_flatMap, List.mem_map,
      List.mem_range]
    exact ⟨i, hi, bid, hbid,
      by rw [compressionLoop_getD_last f m nblock bid hbid]⟩

/-- Witness for C6: two iterations over two blocks with iteration- and
block-dependent lengths `f i bid = 10 * i + bid`; the final table holds
the last iteration's value for block 1. -/
theorem compressedSizeTable_connects_witness :
    (compressionLoop (fun i bid => 10 * i + bid) 2 2).getD 1 0 = 11 :=
  (compressedSizeTable_connects (fun i bid => 10 * i + bid) 1 2).2.1 1
    (by decide)

/-- The argc guard (src/main.cpp lines 53-57): the usage message and
`exit(EXIT_FAILURE)` happen exactly when `argc < 3`. -/
def usageExit (argc : Nat) : Bool := decide (argc < 3)

/-- The largest argv index src/main.cpp reads unconditionally once the
guard is passed: `argv[1]` (file path), `argv[2]` (block size) and
`argv[3]` (iteration count) at lines 59-61. -/
def maxRequiredArgIndex : Nat := 3

/-- Claim C8 (the failing input): an invocation with `argc = 3` — program
name, file path and block size present, the required iteration count
missing — does not take the usage-and-exit path, although main then
reads `argv[3]`, which is past the supplied arguments (`argv[argc]` is
the null terminator).  So an invocation missing a required positional
argument gets past the guard instead of terminating with the usage
message. -/
theorem argc_guard_gap :
    usageExit 3 = false ∧ ¬ (maxRequiredArgIndex < 3) := by decide

/-- Page count of the loaded (truncated) buffer. -/
def numPages (size : Nat) : Nat := size / kPageSize

/-- The number of `MemPage` elements between the two iterators handed to
`std::shuffle` (src/main.cpp line 83): the range starts at `origin` and
ends at `origin + size - kPageSize`, the start of the last page. -/
def shuffleEnd (size : Nat) : Nat := (size - kPageSize) / kPageSize

/-- The page-shuffle step (src/main.cpp lines 81-84): `std::shuffle`
permutes exactly the pages of the half-open range `[0, shuffleEnd size)`;
`g` abstracts the permutation the mt19937-driven shuffle applies to that
range; pages at and after index `shuffleEnd size` are left in place. -/
def pageShuffle (g : List (List Nat) → List (List Nat)) (size : Nat)
    (pages : List (List Nat)) : List (List Nat) :=
  g (pages.take (shuffleEnd size)) ++ pages.drop (shuffleEnd size)

/-- Claim C9 (the failing behaviour): for a buffer of `n ≥ 1` whole
pages the shuffled range ends one page short of the buffer — its end
index plus one is the page count — and therefore the last page keeps its
place under every permutation the shuffle could draw.  The last page
never participates, contradicting the claim that every page, including
the last, does. -/
theorem pageShuffle_misses_last (g : List (List Nat) → List (List Nat))
    (n : Nat) (pages : List (List Nat)) (hn : 1 ≤ n)
    (hlen : pages.length = n) (hg : ∀ l, (g l).length = l.length) :
    shuffleEnd (n * kPageSize) + 1 = numPages (n * kPageSize) ∧
    (pageShuffle g (n * kPageSize) pages).drop (shuffleEnd (n * kPageSize)) =
      pages.drop (shuffleEnd (n * kPageSize)) := by
  have hpos : 0 < kPageSize := by norm_num [kPageSize]
  have hend : shuffleEnd (n * kPageSize) = n - 1 := by
    unfold shuffleEnd
    rw [show n * kPageSize - kPageSize = (n - 1) * kPageSize by
        rw [Nat.sub_mul, one_mul],
      Nat.mul_div_cancel _ hpos]
  have hnum : numPages (n * kPageSize) = n := by
    unfold numPages
    exact Nat.mul_div_cancel n hpos
  refine ⟨by omega, ?_⟩
  unfold pageShuffle
  have htake : (g (pages.take (shuffleEnd (n * kPageSize)))).length =
      shuffleEnd (n * kPageSize) := by
    rw [hg, List.length_take, hlen, hend]
    omega
  have hdrop := List.drop_left (g (pages.take (shuffleEnd (n * kPageSize))))
    (pages.drop (shuffleEnd (n * kPageSize)))
  rw [htake] at hdrop
  exact hdrop

/-- Witness for C9: a two-page buffer; the shuffle range contains only
page 0, so even reversing the shuffled range leaves the buffer — and in
particular its last page — unchanged. -/
theorem pageShuffle_misses_last_witness :
    shuffleEnd (2 * kPageSize) + 1 = numPages (2 * kPageSize) ∧
    (pageShuffle List.reverse (2 * kPageSize) [[1], [2]]).drop
        (shuffleEnd (2 * kPageSize)) =
      List.drop (shuffleEnd (2 * kPageSize)) [[1], [2]] :=
  pageShuffle_misses_last List.reverse 2 [[1], [2]] (by decide) (by decide)
    (fun l => List.length_reverse l)

/-- The two run-long buffers the driver allocates (src/main.cpp lines 77
and 93): `origin` holds the loaded file content, `compressed` the
per-block compressed windows. -/
inductive BufferId where
  | origin
  | compressed
deriving DecidableEq

/-- One decompress call of the decompression loop: which buffer and
offset it writes to, with what capacity, and which buffer and offset it
reads from. -/
structure DecompressCall where
  dstBuf : BufferId
  dstOff : Nat
  dstCap : Nat
  srcBuf : BufferId
  srcOff : Nat
deriving DecidableEq

/-- The decompress call issued for block `bid` in every iteration
(src/main.cpp lines 123-125): the source is
`compressed + bid * comp_block_size` and the destination is
`origin + bid * block_size` — block `bid`'s own region of the loaded
buffer — with `dst_len` exactly `block_size`. -/
def decompressCallFor (block_size comp_block_size bid : Nat) :
    DecompressCall :=
  { dstBuf := .origin
    dstOff := bid * block_size
    dstCap := block_size
    srcBuf := .compressed
    srcOff := bid * comp_block_size }

/-- Two distinct block windows of stride `block_size` cannot both contain
the same byte index. -/
lemma block_regions_disjoint (block_size bid bid' a : Nat) (h : bid < bid')
    (h2 : a < bid * block_size + block_size) (h3 : bid' * block_size ≤ a) :
    False := by
  have h6 : (bid + 1) * block_size ≤ bid' * block_size :=
    Nat.mul_le_mul_right _ h
  rw [Nat.succ_mul] at h6
  exact absurd (Nat.lt_of_lt_of_le h2 (le_trans h6 h3)) (lt_irrefl a)

/-- Claim C10: the benchmark decompresses in place into the source
buffer.  Every decompress call's destination is the `origin` buffer — the
one the file was loaded into — at offset `bid * block_size` with
`dst_len` exactly `block_size`, and the destination regions of two
distinct blocks share no byte, so no call for one block touches another
block's region of that buffer. -/
theorem decompress_in_place (block_size comp_block_size bid bid' : Nat)
    (hbs : 0 < block_size) (hne : bid ≠ bid') :
    (decompressCallFor block_size comp_block_size bid).dstBuf =
      BufferId.origin ∧
    (decompressCallFor block_size comp_block_size bid).dstCap =
      block_size ∧
    (decompressCallFor block_size comp_block_size bid).dstOff =
      bid * block_size ∧
    ∀ a, ¬ ((decompressCallFor block_size comp_block_size bid).dstOff ≤ a ∧
      a < (decompressCallFor block_size comp_block_size bid).dstOff +
        (decompressCallFor block_size comp_block_size bid).dstCap ∧
      (decompressCallFor block_size comp_block_size bid').dstOff ≤ a ∧
      a < (decompressCallFor block_size comp_block_size bid').dstOff +
        (decompressCallFor block_size comp_block_size bid').dstCap) := by
  refine ⟨rfl, rfl, rfl, ?_⟩
  intro a hcontra
  obtain ⟨h1, h2, h3, h4⟩ := hcontra
  simp only [decompressCallFor] at h1 h2 h3 h4
  rcases Nat.lt_or_ge bid bid' with hlt | hge
  · exact block_regions_disjoint block_size bid bid' a hlt h2 h3
  · have hlt' : bid' < bid := by omega
    exact block_regions_disjoint block_size bid' bid a hlt' h4 h1

/-- Witness for C10: with 4-byte blocks, byte 2 lies in block 0's
destination region and not in block 1's. -/
theorem decompress_in_place_witness :
    (decompressCallFor 4 8 0).dstBuf = BufferId.origin ∧
    ¬ ((decompressCallFor 4 8 0).dstOff ≤ 2 ∧
      2 < (decompressCallFor 4 8 0).dstOff + (decompressCallFor 4 8 0).dstCap ∧
      (decompressCallFor 4 8 1).dstOff ≤ 2 ∧
      2 < (decompressCallFor 4 8 1).dstOff + (decompressCallFor 4 8 1).dstCap) :=
  ⟨(decompress_in_place 4 8 0 1 (by decide) (by decide)).1,
   (decompress_in_place 4 8 0 1 (by decide) (by decide)).2.2.2 2⟩

end FastCompress
